/-
Formal verification of the Clawtext adaptive hybrid retrieval-ranking
pipeline.  Each TypeScript function relevant to the verified properties is
shallowly embedded as a Lean definition; JavaScript numbers are modelled as
real numbers (ℝ) where the source uses Math.exp / Math.sqrt, and as
rationals (ℚ) where the arithmetic is field arithmetic only.  Strings are
modelled as lists of characters.  Division by zero in JavaScript produces
NaN or ±Infinity; where that matters (keywordScore) the result type JSNum
makes those outcomes explicit.
-/
import Mathlib

namespace Clawtext

/-! ### Temporal decay (source: temporal-decay module)

`calculateDecayedScore` merges a partial configuration with
`DEFAULT_DECAY_CONFIG`; the embedding takes the already-merged
configuration as an argument. -/

/-- Configuration record for temporal decay, mirroring `DecayConfig`. -/
structure DecayConfig where
  enabled : Bool
  decayRate : ℝ
  maxAgeDays : ℝ
  minScore : ℝ
  recencyBoost : Bool
  recencyWindowDays : ℝ

/-- Default decay configuration, mirroring `DEFAULT_DECAY_CONFIG`. -/
def DEFAULT_DECAY_CONFIG : DecayConfig :=
  { enabled := true
    decayRate := 0.1
    maxAgeDays := 90
    minScore := 0.1
    recencyBoost := true
    recencyWindowDays := 7 }

/-- Embedding of `calculateDecayedScore(originalScore, ageDays, config)`:
exponential decay, then the `minScore` floor, then the hard age cap. -/
noncomputable def calculateDecayedScore (originalScore ageDays : ℝ)
    (config : DecayConfig) : ℝ :=
  if config.enabled = false then originalScore
  else
    let decayFactor := Real.exp (-config.decayRate * ageDays)
    let decayedScore := originalScore * decayFactor
    let floored := max decayedScore config.minScore
    if ageDays > config.maxAgeDays then config.minScore else floored

/-- Embedding of `calculateRecencyBoost(ageDays, config)`. -/
noncomputable def calculateRecencyBoost (ageDays : ℝ) (config : DecayConfig) : ℝ :=
  if config.recencyBoost = false then 1.0
  else if ageDays ≤ 1 then 1.3
  else if ageDays ≤ 3 then 1.2
  else if ageDays ≤ config.recencyWindowDays then 1.1
  else 1.0

/-! ### Keyword scorer (source: hybrid-search-simple.ts, `keywordScore`)

JavaScript produces NaN for `0/0` and +Infinity for `x/0` with `x > 0`;
`Math.min(NaN, 1)` is NaN and `Math.min(Infinity, 1)` is `1`.  The type
`JSNum` records those special values explicitly. -/

/-- JavaScript number outcomes relevant to `keywordScore`: a finite value,
NaN, or a signed infinity. -/
inductive JSNum where
  | val (x : ℝ) : JSNum
  | nan : JSNum
  | inf : JSNum
  | negInf : JSNum

/-- JavaScript division for real operands: `b = 0` yields NaN when the
numerator is 0 and a signed infinity otherwise. -/
noncomputable def jsDiv (a b : ℝ) : JSNum :=
  if b = 0 then
    if a = 0 then JSNum.nan else if 0 < a then JSNum.inf else JSNum.negInf
  else JSNum.val (a / b)

/-- JavaScript `Math.min` against a finite second argument: NaN is
absorbing, `+Infinity` loses, `-Infinity` wins. -/
def jsMin (x : JSNum) (c : ℝ) : JSNum :=
  match x with
  | JSNum.nan => JSNum.nan
  | JSNum.inf => JSNum.val c
  | JSNum.negInf => JSNum.negInf
  | JSNum.val v => JSNum.val (min v c)

/-- Occurrence counting for a non-empty literal pattern, mirroring the
non-overlapping scan of a global regex: after a match the scan resumes past
the matched text.  (Termination: the scanned list shrinks every step.) -/
def countOccAux (pattern : List Char) : List Char → ℕ
  | [] => 0
  | c :: rest =>
    if pattern.isPrefixOf (c :: rest) then
      1 + countOccAux pattern (rest.drop (pattern.length - 1))
    else countOccAux pattern rest
termination_by l => l.length
decreasing_by
  · simp only [List.length_drop, List.length_cons]
    omega
  · simp only [List.length_cons]
    omega

/-- Number of matches of `new RegExp(pattern, g)` in `text` for a literal
pattern: an empty pattern matches at every position (`text.length + 1`),
otherwise a non-overlapping left-to-right scan. -/
def countOccurrences (pattern text : List Char) : ℕ :=
  if pattern = [] then text.length + 1 else countOccAux pattern text

/-- Embedding of `keywordScore(snippet, keywords)`: sum the per-keyword
occurrence counts over the lowercased snippet, divide by
`keywords.length * sqrt(text.length / 100)`, and cap at 1.0.  There is no
guard for an empty keyword list or an empty snippet. -/
noncomputable def keywordScore (snippet : List Char)
    (keywords : List (List Char)) : JSNum :=
  let text := snippet.map Char.toLower
  let matchCount : ℕ := keywords.foldl (fun acc kw => acc + countOccurrences kw text) 0
  let normalized := jsDiv (matchCount : ℝ)
    ((keywords.length : ℝ) * Real.sqrt ((text.length : ℝ) / 100))
  jsMin normalized 1.0

/-! ### JavaScript `Array.prototype.sort`

All sorts in the verified code call `.sort` with a numeric comparator.
`Array.prototype.sort` is stable; for a consistent comparator `c` the
result is the unique stable order in which `x` precedes `y` whenever
`c x y < 0`.  The insertion sort below realises exactly that contract:
an element is placed before the first later-inserted element `y` with
`c x y ≤ 0`, which keeps the original relative order of tied elements. -/

/-- Stable insertion step for the comparator `c` (earlier elements win
ties, matching stable sort). -/
def jsSortInsert {α : Type} (c : α → α → ℚ) (x : α) : List α → List α
  | [] => [x]
  | y :: ys => if c x y ≤ 0 then x :: y :: ys else y :: jsSortInsert c x ys

/-- Stable sort with a JavaScript numeric comparator. -/
def jsSort {α : Type} (c : α → α → ℚ) : List α → List α
  | [] => []
  | x :: xs => jsSortInsert c x (jsSort c xs)

/-! ### Reciprocal Rank Fusion (source: `reciprocalRankFusion`)

The two `Map`s of the source (`resultMap`, `rrfScores`) are modelled as
association lists that preserve insertion order, exactly as a JavaScript
`Map` does. -/

/-- Candidate item: `RankedResult` of the source (`score` models
`score || 0`, `snippet` models `snippet || content || empty`). -/
structure RankedResult where
  id : String
  score : ℚ := 0
  snippet : List Char := []
deriving DecidableEq

/-- Fused output record: the carried-through input result plus its
accumulated `rrfScore`. -/
structure FusedResult where
  result : RankedResult
  rrfScore : ℚ
deriving DecidableEq

/-- Options of `reciprocalRankFusion` (`k = 60` and empty `weights` by
default). -/
structure RRFOptions where
  k : ℚ := 60
  weights : List (ℕ × ℚ) := []

/-- Per-source weight: `weights[sourceIndex] || 1.0` (a stored weight of 0
is falsy in JavaScript and falls back to 1.0). -/
def lookupWeight (weights : List (ℕ × ℚ)) (i : ℕ) : ℚ :=
  match weights.lookup i with
  | none => 1.0
  | some w => if w = 0 then 1.0 else w

/-- Internal state of the fusion loop: first-occurrence results in
insertion order, and the accumulated RRF score per id. -/
structure RRFState where
  resultMap : List (String × RankedResult)
  rrfScores : List (String × ℚ)

/-- Insertion-order-preserving `Map.set` on the score map. -/
def rrfSet (m : List (String × ℚ)) (key : String) (v : ℚ) :
    List (String × ℚ) :=
  match m with
  | [] => [(key, v)]
  | p :: rest => if p.1 = key then (key, v) :: rest else p :: rrfSet rest key v

/-- Processing of one `(rank, result)` pair of one ranking: record the
first occurrence and add `weight * (1 / (k + rank + 1))` to the id's
score. -/
def rrfProcessResult (k sourceWeight : ℚ) (st : RRFState)
    (p : ℕ × RankedResult) : RRFState :=
  let id := p.2.id
  let resultMap :=
    if (st.resultMap.lookup id).isSome then st.resultMap
    else st.resultMap ++ [(id, p.2)]
  let rrfContribution := sourceWeight * (1 / (k + (p.1 : ℚ) + 1))
  let currentScore := (st.rrfScores.lookup id).getD 0
  { resultMap := resultMap
    rrfScores := rrfSet st.rrfScores id (currentScore + rrfContribution) }

/-- Processing of one ranked list (`ranking.forEach((result, rank) => …)`). -/
def rrfProcessRanking (k w : ℚ) (st : RRFState)
    (ranking : List RankedResult) : RRFState :=
  ranking.enum.foldl (rrfProcessResult k w) st

/-- The `combinedResults` array of the source before sorting: one fused
record per unique id, in first-occurrence order. -/
def rrfCombined (rankings : List (List RankedResult))
    (options : RRFOptions) : List FusedResult :=
  let st := rankings.enum.foldl
    (fun st p => rrfProcessRanking options.k (lookupWeight options.weights p.1) st p.2)
    ⟨[], []⟩
  st.resultMap.map (fun p => ⟨p.2, (st.rrfScores.lookup p.1).getD 0⟩)

/-- Embedding of `reciprocalRankFusion(rankings, options)`: fuse, then
sort by `rrfScore` descending with the stable JavaScript sort. -/
def reciprocalRankFusion (rankings : List (List RankedResult))
    (options : RRFOptions) : List FusedResult :=
  jsSort (fun a b => b.rrfScore - a.rrfScore) (rrfCombined rankings options)

/-! ### Maximal Marginal Relevance (source: `maximalMarginalRelevance`)

The unused `query` parameter of the source signature is omitted; the
source body never reads it. -/

/-- Options of `maximalMarginalRelevance` (`similarityThreshold` is
destructured but unused in the source body; it is kept for fidelity). -/
structure MMROptions where
  lambda : ℚ := 1/2
  maxResults : ℕ := 10
  similarityThreshold : ℚ := 7/10

/-- JavaScript `s.split(/\s+/)` worker: cut at each maximal whitespace
run; a leading or trailing run contributes an empty field. -/
def splitWsGo : List Char → List Char → List (List Char)
  | [], acc => [acc.reverse]
  | c :: rest, acc =>
    if c.isWhitespace then
      acc.reverse :: splitWsGo (rest.dropWhile Char.isWhitespace) []
    else splitWsGo rest (c :: acc)
termination_by l _ => l.length
decreasing_by
  · simp only [List.length_cons]
    have h := (List.dropWhile_sublist (l := rest) Char.isWhitespace).length_le
    omega
  · simp only [List.length_cons]
    omega

/-- JavaScript `s.split(/\s+/)` for a string modelled as a character
list. -/
def splitWs (s : List Char) : List (List Char) := splitWsGo s []

/-- JavaScript `Set` built from a list: distinct elements in
first-insertion order. -/
def jsSetList : List (List Char) → List (List Char)
  | [] => []
  | x :: xs => x :: jsSetList (xs.filter (fun y => ¬ y = x))
termination_by l => l.length
decreasing_by
  simp only [List.length_cons]
  have h := List.length_filter_le (fun y => ¬ y = x) xs
  omega

/-- Embedding of `estimateSimilarity(a, b)`: Jaccard similarity of the
whitespace-split word sets of the lowercased snippets; 0 when either
snippet is empty. -/
def estimateSimilarity (a b : RankedResult) : ℚ :=
  let aSnippet := a.snippet.map Char.toLower
  let bSnippet := b.snippet.map Char.toLower
  if aSnippet = [] ∨ bSnippet = [] then 0
  else
    let aWords := jsSetList (splitWs aSnippet)
    let bWords := jsSetList (splitWs bSnippet)
    let intersection := aWords.filter (fun w => w ∈ bWords)
    let union := jsSetList (aWords ++ bWords)
    (intersection.length : ℚ) / (union.length : ℚ)

/-- Maximal similarity of `r` to any already-selected result
(`selected.reduce(…, 0)`). -/
def maxSimilarityTo (selected : List RankedResult) (r : RankedResult) : ℚ :=
  selected.foldl (fun mx s => max mx (estimateSimilarity r s)) 0

/-- MMR objective of one candidate:
`lambda * relevance - (1 - lambda) * maxSimilarity`. -/
def mmrScore (lambda : ℚ) (selected : List RankedResult)
    (r : RankedResult) : ℚ :=
  lambda * r.score - (1 - lambda) * maxSimilarityTo selected r

/-- One step of the source's best-index scan: keep the first index whose
MMR score strictly beats the best so far; `none` models the initial
`bestMMRScore = -Infinity`, `bestIndex = -1` state, which any rational
beats. -/
def bestFoldStep (g : RankedResult → ℚ) (best : Option (ℚ × ℕ))
    (p : ℕ × RankedResult) : Option (ℚ × ℕ) :=
  let m := g p.2
  match best with
  | none => some (m, p.1)
  | some q => if m > q.1 then some (m, p.1) else some q

/-- Index search of the source loop (`remaining.forEach((result, index)
=> …)`): the index of the first maximal MMR score, `none` only for an
empty list. -/
def bestIndex (lambda : ℚ) (selected remaining : List RankedResult) :
    Option ℕ :=
  (remaining.enum.foldl (bestFoldStep (mmrScore lambda selected)) none).map
    Prod.snd

/-- The `while` loop of the source: as long as fewer than `maxResults`
are selected and candidates remain, move the best-index candidate from
`remaining` to `selected`.  The fuel argument is set to the length of
`remaining`, which the loop consumes one element per iteration. -/
def mmrLoop (lambda : ℚ) (maxResults : ℕ) :
    ℕ → List RankedResult → List RankedResult → List RankedResult
  | 0, selected, _ => selected
  | fuel + 1, selected, remaining =>
    if selected.length < maxResults ∧ remaining ≠ [] then
      match bestIndex lambda selected remaining with
      | some i =>
        match remaining.get? i with
        | some r =>
          mmrLoop lambda maxResults fuel (selected ++ [r]) (remaining.eraseIdx i)
        | none => selected
      | none => selected
    else selected

/-- Embedding of `maximalMarginalRelevance(results, query, options)`:
return `[]` on empty input; otherwise sort a copy by score descending
(stable), move its head to `selected`, and run the greedy loop. -/
def maximalMarginalRelevance (results : List RankedResult)
    (options : MMROptions) : List RankedResult :=
  if results = [] then []
  else
    match jsSort (fun a b => b.score - a.score) results with
    | [] => []
    | h :: t => mmrLoop options.lambda options.maxResults t.length [h] t

/-! ### Session context selection (source: `loadSessionContext` module)

Only the pure core is embedded: the asynchronously fetched memory lists
(cluster memories, preferences, project context, decisions) appear as
parameters, and the embedding performs the source's gathering, its
deduplication, its priority sort, and its token-budget trim. -/

/-- Memory record with the fields the session-context core reads:
deduplication key (`path`, `startLine`), snippet, and hybrid score. -/
structure SessionMemory where
  path : List Char
  startLine : ℕ
  snippet : List Char
  hybridScore : ℚ
deriving DecidableEq

/-- Configuration record mirroring `SessionContextConfig`. -/
structure SessionContextConfig where
  maxMemories : ℕ := 10
  tokenBudget : ℕ := 2000
  minConfidence : ℚ := 7/10
  autoLoadTypes : List String := ["preference", "decision", "project_context", "fact"]
  recencyBoost : Bool := true
  useClusters : Bool := true

/-- Embedding of `estimateTokens(text)`: `ceil(text.length / 4)`. -/
def estimateTokens (text : List Char) : ℕ := (text.length + 3) / 4

/-- Loop of `trimToBudget` carrying the accumulated token total: stop
(and drop the rest) at the first memory that would exceed the budget. -/
def trimGo (budget totalTokens : ℕ) : List SessionMemory → List SessionMemory
  | [] => []
  | memory :: rest =>
    let tokens := estimateTokens memory.snippet
    if totalTokens + tokens > budget then []
    else memory :: trimGo budget (totalTokens + tokens) rest

/-- Embedding of `trimToBudget(memories, budget)`. -/
def trimToBudget (memories : List SessionMemory) (budget : ℕ) :
    List SessionMemory :=
  trimGo budget 0 memories

/-- Loop of `deduplicateById` carrying the `seen` set of keys. -/
def deduplicateGo (seen : List (List Char × ℕ)) :
    List SessionMemory → List SessionMemory
  | [] => []
  | m :: rest =>
    let idKey := (m.path, m.startLine)
    if idKey ∈ seen then deduplicateGo seen rest
    else m :: deduplicateGo (idKey :: seen) rest

/-- Embedding of `deduplicateById(memories)`: keep the first memory for
each `(path, startLine)` key. -/
def deduplicateById (memories : List SessionMemory) : List SessionMemory :=
  deduplicateGo [] memories

/-- Pin marker searched for by the priority comparator (`snippet`
contains the pin emoji). -/
def pinMarker : List Char := ['📌']

/-- Substring test (JavaScript `String.prototype.includes`). -/
def containsSub (needle : List Char) : List Char → Bool
  | [] => needle.isEmpty
  | c :: rest => needle.isPrefixOf (c :: rest) || containsSub needle rest

/-- Recent-path test of the priority comparator: the path contains one of
two hard-coded dates. -/
def isRecentPath (p : List Char) : Bool :=
  containsSub ("2026-02-23".toList) p || containsSub ("2026-02-22".toList) p

/-- Comparator of `prioritizeForContext`: pinned first, then hybrid score
descending when the scores differ by more than 0.05, then recent paths
first, else tie. -/
def prioritizeCompare (a b : SessionMemory) : ℚ :=
  let aPinned := containsSub pinMarker a.snippet
  let bPinned := containsSub pinMarker b.snippet
  if aPinned ≠ bPinned then (if bPinned then 1 else -1)
  else if |a.hybridScore - b.hybridScore| > 0.05 then
    b.hybridScore - a.hybridScore
  else
    let aRecent := isRecentPath a.path
    let bRecent := isRecentPath b.path
    if aRecent ≠ bRecent then (if aRecent then -1 else 1) else 0

/-- Embedding of `prioritizeForContext(memories)`. -/
def prioritizeForContext (memories : List SessionMemory) :
    List SessionMemory :=
  jsSort prioritizeCompare memories

/-- Gathering phase of `loadSessionContext` (steps 0 to 3): cluster
memories when clusters are enabled, a project id is present and the
cluster is non-empty; then preferences; then project context only when a
project id is present and no cluster loaded; then decisions. -/
def gatherMemories (clusterMemories preferences projectContext decisions :
    List SessionMemory) (projectId : Option String)
    (cfg : SessionContextConfig) : List SessionMemory :=
  let clusterLoaded := cfg.useClusters && projectId.isSome && !clusterMemories.isEmpty
  (if clusterLoaded then clusterMemories else []) ++ preferences ++
    (if projectId.isSome && !clusterLoaded then projectContext else []) ++
    decisions

/-- Pure core of `loadSessionContext` (steps 0 to 5): gather, deduplicate,
rank, and trim to the token budget.  Note that the source applies no
`maxMemories` bound in this pipeline. -/
def loadSessionContextSelect (clusterMemories preferences projectContext
    decisions : List SessionMemory) (projectId : Option String)
    (cfg : SessionContextConfig) : List SessionMemory :=
  trimToBudget
    (prioritizeForContext
      (deduplicateById
        (gatherMemories clusterMemories preferences projectContext decisions
          projectId cfg)))
    cfg.tokenBudget

/-! ### Adaptive learning (source: adaptive-features.ts, `AdaptiveLearning`)

The private `queryPatterns` map is modelled as an insertion-ordered
association list; `recordQuery` and `shouldUseExpansion` become pure
functions of that state. -/

/-- Per-pattern statistics record of `AdaptiveLearning.queryPatterns`. -/
structure PatternStats where
  usesExpansion : ℕ
  totalUses : ℕ
  avgQualityWith : ℚ
  avgQualityWithout : ℚ
deriving DecidableEq

/-- Initial statistics used when a pattern is first observed. -/
def emptyStats : PatternStats :=
  { usesExpansion := 0, totalUses := 0, avgQualityWith := 0, avgQualityWithout := 0 }

/-- Learning state: the `queryPatterns` map. -/
def LearnState := List (String × PatternStats)

/-- Insertion-order-preserving `Map.set` on the learning state. -/
def setPattern (st : List (String × PatternStats)) (p : String)
    (v : PatternStats) : List (String × PatternStats) :=
  match st with
  | [] => [(p, v)]
  | q :: rest => if q.1 = p then (p, v) :: rest else q :: setPattern rest p v

/-- Update of one pattern's statistics by one outcome, mirroring the
mutation body of `recordQuery`: increment the total, then update the
incremental mean of the matching cohort (the JavaScript mean arithmetic
is over numbers, modelled as ℚ). -/
def recordStep (existing : PatternStats) (usedExpansion : Bool)
    (resultQuality : ℚ) : PatternStats :=
  let totalUses := existing.totalUses + 1
  if usedExpansion then
    let usesExpansion := existing.usesExpansion + 1
    let avgQualityWith :=
      (existing.avgQualityWith * ((usesExpansion : ℚ) - 1) + resultQuality) /
        (usesExpansion : ℚ)
    { usesExpansion := usesExpansion, totalUses := totalUses
      avgQualityWith := avgQualityWith
      avgQualityWithout := existing.avgQualityWithout }
  else
    let avgQualityWithout :=
      (existing.avgQualityWithout *
          ((totalUses : ℚ) - (existing.usesExpansion : ℚ) - 1) + resultQuality) /
        ((totalUses : ℚ) - (existing.usesExpansion : ℚ))
    { usesExpansion := existing.usesExpansion, totalUses := totalUses
      avgQualityWith := existing.avgQualityWith
      avgQualityWithout := avgQualityWithout }

/-- Embedding of `recordQuery(queryPattern, usedExpansion, resultQuality)`:
fetch the pattern's statistics (or the initial record), update them with
the outcome, and store them back. -/
def recordQuery (st : List (String × PatternStats)) (queryPattern : String)
    (usedExpansion : Bool) (resultQuality : ℚ) :
    List (String × PatternStats) :=
  setPattern st queryPattern
    (recordStep ((st.lookup queryPattern).getD emptyStats) usedExpansion
      resultQuality)

/-- Embedding of `shouldUseExpansion(queryPattern)`: `none` models the
`null` returned with no or fewer than 3 observations; otherwise the
boolean `avgQualityWith > avgQualityWithout + 0.1`. -/
def shouldUseExpansion (st : List (String × PatternStats))
    (queryPattern : String) : Option Bool :=
  match st.lookup queryPattern with
  | none => none
  | some data =>
    if data.totalUses < 3 then none
    else some (decide (data.avgQualityWith > data.avgQualityWithout + 0.1))

/-- Replay of a sequence of `recordQuery` calls
(pattern, usedExpansion, resultQuality) against a fresh learner. -/
def replayLearning (records : List (String × Bool × ℚ)) :
    List (String × PatternStats) :=
  records.foldl (fun st r => recordQuery st r.1 r.2.1 r.2.2) []

/-- Observer for stating the learning-gate claim: the records of one
pattern, in order. -/
def recordsFor (p : String) (records : List (String × Bool × ℚ)) :
    List (String × Bool × ℚ) :=
  records.filter (fun r => r.1 = p)

/-- Observer: the qualities recorded for pattern `p` with the feature. -/
def qualitiesWith (p : String) (records : List (String × Bool × ℚ)) :
    List ℚ :=
  ((recordsFor p records).filter (fun r => r.2.1)).map (fun r => r.2.2)

/-- Observer: the qualities recorded for pattern `p` without the
feature. -/
def qualitiesWithout (p : String) (records : List (String × Bool × ℚ)) :
    List ℚ :=
  ((recordsFor p records).filter (fun r => !r.2.1)).map (fun r => r.2.2)

/-- Arithmetic mean of a list of rationals, 0 for the empty list. -/
def meanOf (l : List ℚ) : ℚ :=
  if l.length = 0 then 0 else l.sum / (l.length : ℚ)

/-- Observer: the statistics that a sequence of single-pattern outcomes
should produce — counts and batch means computed from scratch. -/
def statsOfRecords (rs : List (Bool × ℚ)) : PatternStats :=
  { usesExpansion := (rs.filter (fun r => r.1)).length
    totalUses := rs.length
    avgQualityWith := meanOf ((rs.filter (fun r => r.1)).map (fun r => r.2))
    avgQualityWithout := meanOf ((rs.filter (fun r => !r.1)).map (fun r => r.2)) }

/-- Observer: one-record advance of an optional statistics value, as the
replay of `recordQuery` performs it on the looked-up entry. -/
def applyRecord (acc : Option PatternStats) (r : Bool × ℚ) :
    Option PatternStats :=
  some (recordStep (acc.getD emptyStats) r.1 r.2)

/-! ### Concrete inputs used by counterexamples and witnesses -/

/-- Total estimated tokens of a memory list (observer for the budgeter
claims). -/
def tokenSum (memories : List SessionMemory) : ℕ :=
  (memories.map (fun m => estimateTokens m.snippet)).sum

/-- Budget example memory A: a 2000-character snippet costs
`ceil(2000 / 4) = 500` estimated tokens. -/
def budgetMemA : SessionMemory :=
  { path := ['a'], startLine := 1, snippet := List.replicate 2000 'x'
    hybridScore := 1 }

/-- Budget example memory B: another 500-token memory. -/
def budgetMemB : SessionMemory :=
  { path := ['b'], startLine := 1, snippet := List.replicate 2000 'x'
    hybridScore := 1 }

/-- Budget example memory C: a 4800-character snippet costs 1200
estimated tokens. -/
def budgetMemC : SessionMemory :=
  { path := ['c'], startLine := 1, snippet := List.replicate 4800 'x'
    hybridScore := 1 }

/-- Session memory number `i` of the count-cap example: distinct
deduplication keys, identical one-token snippets, identical scores, no
pin marker, no recent date in the path. -/
def contextMem (i : ℕ) : SessionMemory :=
  { path := ['m'], startLine := i, snippet := ['n', 'o', 't', 'e']
    hybridScore := 1 }

/-- Twelve distinct memories for the count-cap example. -/
def contextMems : List SessionMemory := (List.range 12).map contextMem

/-- RRF example result with id "b" (default score and snippet). -/
def rrfMemB : RankedResult := { id := "b" }

/-- RRF example result with id "a" (default score and snippet). -/
def rrfMemA : RankedResult := { id := "a" }

/-! ### Theorems: temporal decay (claims C3, C4, C9) -/

/-- C9: with decay enabled, `calculateDecayedScore` never returns a value
below the configured `minScore`, for every original score (including
scores already below the floor, which the floor then raises) and every
age. -/
theorem decay_floor_invariant (s age : ℝ) (cfg : DecayConfig)
    (h : cfg.enabled = true) :
    cfg.minScore ≤ calculateDecayedScore s age cfg ∧
    (s < cfg.minScore → s < calculateDecayedScore s age cfg) := by
  have hmain : cfg.minScore ≤ calculateDecayedScore s age cfg := by
    unfold calculateDecayedScore
    rw [h]
    simp only [Bool.true_eq_false, if_false]
    split
    · exact le_refl _
    · exact le_max_right _ _
  exact ⟨hmain, fun hs => lt_of_lt_of_le hs hmain⟩

/-- Witness for C9 at a concrete input: original score 0.05 below the
default floor 0.1, age 5 days. -/
theorem decay_floor_invariant_witness :
    DEFAULT_DECAY_CONFIG.minScore ≤
      calculateDecayedScore 0.05 5 DEFAULT_DECAY_CONFIG :=
  (decay_floor_invariant 0.05 5 DEFAULT_DECAY_CONFIG rfl).1

/-- C3 counterexample: with `decayRate = 0` (and the other defaults), an
original score of 0.05 at age 0 is returned as the floor 0.1, not
unchanged — so a zero decay rate does not return every original score
unchanged. -/
theorem decay_zero_counterexample :
    calculateDecayedScore 0.05 0 { DEFAULT_DECAY_CONFIG with decayRate := 0 } = 0.1 ∧
    (0.1 : ℝ) ≠ 0.05 := by
  constructor
  · unfold calculateDecayedScore DEFAULT_DECAY_CONFIG
    norm_num [Real.exp_zero]
  · norm_num

/-- C3 (amended): with decay enabled and `decayRate = 0`, the exponential
factor is 1, so the result is the original score unchanged provided the
score is at least the floor `minScore` and the age does not exceed the
hard cap `maxAgeDays`. -/
theorem decay_rate_zero_identity (s age : ℝ) (cfg : DecayConfig)
    (hen : cfg.enabled = true) (hrate : cfg.decayRate = 0)
    (hfloor : cfg.minScore ≤ s) (hcap : age ≤ cfg.maxAgeDays) :
    calculateDecayedScore s age cfg = s := by
  unfold calculateDecayedScore
  rw [hen, hrate]
  simp only [Bool.true_eq_false, if_false, neg_zero, zero_mul, Real.exp_zero,
    mul_one]
  rw [max_eq_left hfloor, if_neg (not_lt.2 hcap)]

/-- Witness for the amended C3: decay rate 0, score 0.5, age 30 days. -/
theorem decay_rate_zero_identity_witness :
    calculateDecayedScore 0.5 30 { DEFAULT_DECAY_CONFIG with decayRate := 0 } = 0.5 :=
  decay_rate_zero_identity 0.5 30 _ rfl rfl
    (by norm_num [DEFAULT_DECAY_CONFIG]) (by norm_num [DEFAULT_DECAY_CONFIG])

/-- C4 counterexample: with the default configuration (decay rate 0.1), a
negative age of -10 days is not treated as 0: the score 0.5 is amplified
to `0.5 * exp 1`, which differs from the value 0.5 obtained at age 0. -/
theorem decay_negative_age_counterexample :
    calculateDecayedScore 0.5 (-10) DEFAULT_DECAY_CONFIG ≠
      calculateDecayedScore 0.5 0 DEFAULT_DECAY_CONFIG := by
  have hexp : (1 : ℝ) < Real.exp 1 := by
    have h := Real.exp_one_gt_d9
    linarith
  have h0 : calculateDecayedScore 0.5 0 DEFAULT_DECAY_CONFIG = 0.5 := by
    unfold calculateDecayedScore DEFAULT_DECAY_CONFIG
    norm_num [Real.exp_zero]
  have hneg : calculateDecayedScore 0.5 (-10) DEFAULT_DECAY_CONFIG
      = 0.5 * Real.exp 1 := by
    unfold calculateDecayedScore DEFAULT_DECAY_CONFIG
    norm_num
    nlinarith
  rw [h0, hneg]
  intro hcontra
  nlinarith

/-- C4 (amended): `calculateDecayedScore` applies no clamp to a negative
age: with decay enabled, a positive decay rate, a non-negative age cap,
and an original score at or above the floor, every negative age yields a
strictly larger result than age 0 (the exponential amplifies the
score). -/
theorem decay_negative_age_amplifies (s age : ℝ) (cfg : DecayConfig)
    (hen : cfg.enabled = true) (hrate : 0 < cfg.decayRate) (hage : age < 0)
    (hcap : 0 ≤ cfg.maxAgeDays) (hfloor : cfg.minScore ≤ s) (hs : 0 < s) :
    calculateDecayedScore s 0 cfg < calculateDecayedScore s age cfg := by
  have hexp : (1 : ℝ) < Real.exp (-cfg.decayRate * age) := by
    rw [Real.one_lt_exp_iff]
    exact mul_pos_of_neg_of_neg (neg_lt_zero.2 hrate) hage
  have hgt : s < s * Real.exp (-cfg.decayRate * age) := by
    nlinarith
  have h0 : calculateDecayedScore s 0 cfg = s := by
    unfold calculateDecayedScore
    rw [hen]
    simp only [Bool.true_eq_false, if_false, mul_zero, Real.exp_zero, mul_one]
    rw [max_eq_left hfloor, if_neg (not_lt.2 hcap)]
  have hneg : calculateDecayedScore s age cfg
      = s * Real.exp (-cfg.decayRate * age) := by
    unfold calculateDecayedScore
    rw [hen]
    simp only [Bool.true_eq_false, if_false]
    rw [max_eq_left (le_trans hfloor (le_of_lt hgt)),
      if_neg (not_lt.2 (le_trans (le_of_lt hage) hcap))]
  rw [h0, hneg]
  exact hgt

/-- Witness for the amended C4: defaults, score 0.5, age -10 days. -/
theorem decay_negative_age_amplifies_witness :
    calculateDecayedScore 0.5 0 DEFAULT_DECAY_CONFIG <
      calculateDecayedScore 0.5 (-10) DEFAULT_DECAY_CONFIG :=
  decay_negative_age_amplifies 0.5 (-10) DEFAULT_DECAY_CONFIG rfl
    (by norm_num [DEFAULT_DECAY_CONFIG]) (by norm_num)
    (by norm_num [DEFAULT_DECAY_CONFIG]) (by norm_num [DEFAULT_DECAY_CONFIG])
    (by norm_num)

/-! ### Theorems: budgeter (claim C6) and count cap (claim C2) -/

/-- Helper: the trim loop returns a prefix of its input. -/
theorem trimGo_initial_segment (b : ℕ) (l : List SessionMemory) :
    ∀ t, trimGo b t l <+: l := by
  induction l with
  | nil => intro t; simp [trimGo]
  | cons m rest ih =>
    intro t
    simp only [trimGo]
    split
    · exact ⟨m :: rest, rfl⟩
    · obtain ⟨s, hs⟩ := ih (t + estimateTokens m.snippet)
      exact ⟨s, by rw [List.cons_append, hs]⟩

/-- Helper: the trim loop never lets the running total exceed the
budget. -/
theorem trimGo_sum (b : ℕ) (l : List SessionMemory) :
    ∀ t, t + tokenSum (trimGo b t l) ≤ b ∨ tokenSum (trimGo b t l) = 0 := by
  induction l with
  | nil => intro t; right; simp [trimGo, tokenSum]
  | cons m rest ih =>
    intro t
    simp only [trimGo]
    split
    · right; simp [tokenSum]
    · left
      rename_i hle
      rcases ih (t + estimateTokens m.snippet) with h | h
      · simp only [tokenSum, List.map_cons, List.sum_cons] at *
        omega
      · simp only [tokenSum, List.map_cons, List.sum_cons] at *
        omega

/-- Helper: the first input item after the returned prefix would exceed
the budget. -/
theorem trimGo_stop (b : ℕ) (l : List SessionMemory) :
    ∀ t x rest, l.drop (trimGo b t l).length = x :: rest →
      b < t + tokenSum (trimGo b t l) + estimateTokens x.snippet := by
  induction l with
  | nil => intro t x rest h; simp [trimGo] at h
  | cons m l' ih =>
    intro t x rest h
    simp only [trimGo] at h ⊢
    by_cases hgt : t + estimateTokens m.snippet > b
    · rw [if_pos hgt] at h ⊢
      simp only [List.length_nil, List.drop_zero] at h
      cases h
      simp only [tokenSum, List.map_nil, List.sum_nil]
      omega
    · rw [if_neg hgt] at h ⊢
      simp only [List.length_cons, List.drop_succ_cons] at h
      have hrec := ih (t + estimateTokens m.snippet) x rest h
      simp only [tokenSum, List.map_cons, List.sum_cons] at hrec ⊢
      omega

/-- C6: `trimToBudget` walks the rank-ordered list accumulating
`ceil(length / 4)` tokens per item and stops at (excluding) the first item
that would exceed the budget, never skipping ahead: its output is a prefix
of the input, the prefix total stays within the budget, and whenever an
item follows the prefix, that item would overflow the budget.  On items
with token costs [500, 500, 1200] and budget 900, the output is exactly
the first 500-cost item. -/
theorem trimToBudget_rank_preserving :
    (∀ (l : List SessionMemory) (b : ℕ),
      trimToBudget l b <+: l ∧
      tokenSum (trimToBudget l b) ≤ b ∧
      ∀ x rest, l.drop (trimToBudget l b).length = x :: rest →
        b < tokenSum (trimToBudget l b) + estimateTokens x.snippet) ∧
    trimToBudget [budgetMemA, budgetMemB, budgetMemC] 900 = [budgetMemA] := by
  constructor
  · intro l b
    refine ⟨trimGo_initial_segment b l 0, ?_, ?_⟩
    · rcases trimGo_sum b l 0 with h | h
      · simpa using h
      · simp [trimToBudget, h]
    · intro x rest h
      have := trimGo_stop b l 0 x rest h
      simpa using this
  · have hA : estimateTokens budgetMemA.snippet = 500 := by
      simp only [estimateTokens, budgetMemA, List.length_replicate]
    have hB : estimateTokens budgetMemB.snippet = 500 := by
      simp only [estimateTokens, budgetMemB, List.length_replicate]
    norm_num [trimToBudget, trimGo, hA, hB]

/-- Witness for C6: applying the theorem to the concrete
[500, 500, 1200]-cost list shows the second item would overflow the 900
budget. -/
theorem trimToBudget_rank_preserving_witness :
    900 < tokenSum (trimToBudget [budgetMemA, budgetMemB, budgetMemC] 900) +
      estimateTokens budgetMemB.snippet := by
  have hmain := trimToBudget_rank_preserving
  refine (hmain.1 [budgetMemA, budgetMemB, budgetMemC] 900).2.2 budgetMemB
    [budgetMemC] ?_
  rw [hmain.2]
  simp

/-- Helper: the stable JavaScript sort leaves a list unchanged when the
comparator never orders a pair of its elements strictly. -/
theorem jsSort_of_all_nonpos {α : Type} (c : α → α → ℚ) (l : List α)
    (h : ∀ x ∈ l, ∀ y ∈ l, c x y ≤ 0) : jsSort c l = l := by
  induction l with
  | nil => rfl
  | cons x xs ih =>
    have hxs : jsSort c xs = xs := by
      apply ih
      intro a ha b hb
      exact h a (List.mem_cons_of_mem x ha) b (List.mem_cons_of_mem x hb)
    simp only [jsSort, hxs]
    cases xs with
    | nil => rfl
    | cons y ys =>
      simp only [jsSortInsert]
      rw [if_pos (h x (List.mem_cons_self x _) y
        (List.mem_cons_of_mem x (List.mem_cons_self y ys)))]

/-- C2 (code bug): the session-context pipeline applies only the
token-budget trim; the configured `maxMemories` (default 10) is never
enforced.  Twelve distinct one-token memories all fit the default 2000
token budget, so twelve memories are returned. -/
theorem load_session_context_exceeds_max :
    ({} : SessionContextConfig).maxMemories = 10 ∧
    (loadSessionContextSelect [] contextMems [] [] none {}).length = 12 := by
  refine ⟨rfl, ?_⟩
  have hcomp : ∀ i j : ℕ, prioritizeCompare (contextMem i) (contextMem j) = 0 := by
    intro i j
    have h1 : containsSub pinMarker ['n', 'o', 't', 'e'] = false := rfl
    have h2 : isRecentPath ['m'] = false := rfl
    norm_num [prioritizeCompare, contextMem, h1, h2]
  have hsort : prioritizeForContext contextMems = contextMems := by
    unfold prioritizeForContext
    apply jsSort_of_all_nonpos
    intro x hx y hy
    simp only [contextMems, List.mem_map] at hx hy
    obtain ⟨i, _, rfl⟩ := hx
    obtain ⟨j, _, rfl⟩ := hy
    rw [hcomp i j]
  have hdedup : deduplicateById (gatherMemories [] contextMems [] [] none {})
      = contextMems := rfl
  show (trimToBudget (prioritizeForContext (deduplicateById
    (gatherMemories [] contextMems [] [] none {}))) _).length = 12
  rw [hdedup, hsort]
  rfl

/-! ### Theorems: keyword scorer (claim C1) -/

/-- Helper: a fold accumulating only zero contributions returns its
initial accumulator. -/
theorem foldl_add_zero {α : Type} (f : α → ℕ) (ks : List α)
    (h : ∀ kw ∈ ks, f kw = 0) : ∀ acc, ks.foldl (fun a kw => a + f kw) acc = acc := by
  induction ks with
  | nil => intro acc; rfl
  | cons k ks ih =>
    intro acc
    simp only [List.foldl_cons]
    rw [h k (List.mem_cons_self k ks)]
    exact ih (fun kw hkw => h kw (List.mem_cons_of_mem k hkw)) acc

/-- C1 counterexample: on the snippet "abc" with an empty term set,
`keywordScore` computes `0 / (0 * sqrt(3 / 100))`, a division of 0 by 0,
and returns NaN — not the score 0 the claim asserts. -/
theorem keywordScore_empty_terms_counterexample :
    keywordScore ['a', 'b', 'c'] [] = JSNum.nan ∧
    JSNum.nan ≠ JSNum.val 0 := by
  constructor
  · unfold keywordScore
    simp [jsDiv, jsMin]
  · intro h
    exact JSNum.noConfusion h

/-- C1 (amended): there is no guard in `keywordScore`.  With an empty
term set (for any snippet), or with a zero-length snippet and non-empty
literal terms, the denominator `termCount * sqrt(snippetLength / 100)` is
0 while the match count is 0, so the score is NaN (the JavaScript result
of 0/0), not 0. -/
theorem keywordScore_no_guard :
    (∀ snippet : List Char, keywordScore snippet [] = JSNum.nan) ∧
    (∀ keywords : List (List Char), keywords ≠ [] →
      (∀ kw ∈ keywords, kw ≠ []) → keywordScore [] keywords = JSNum.nan) := by
  constructor
  · intro snippet
    unfold keywordScore
    simp [jsDiv, jsMin]
  · intro keywords hne hkw
    have hcount : ∀ kw ∈ keywords, countOccurrences kw [] = 0 := by
      intro kw hmem
      unfold countOccurrences
      rw [if_neg (hkw kw hmem)]
      simp [countOccAux]
    have hfold : List.foldl (fun acc kw => acc + countOccurrences kw []) 0 keywords = 0 :=
      foldl_add_zero _ _ hcount 0
    unfold keywordScore
    simp [jsDiv, jsMin, hfold]

/-- Witness for the amended C1: the empty snippet against the term list
["a"] yields NaN. -/
theorem keywordScore_no_guard_witness :
    keywordScore [] [['a']] = JSNum.nan :=
  keywordScore_no_guard.2 [['a']] (by decide) (by decide)

/-! ### Theorems: RRF tie-breaking (claim C5) -/

/-- Helper: inserting `x` with the key-descending comparator passes only
over elements with a strictly larger key, so the elements of any one key
value keep their relative order. -/
theorem jsSortInsert_filter_key {α : Type} (key : α → ℚ) (q : ℚ) (x : α)
    (l : List α) :
    List.filter (fun z => key z = q)
        (jsSortInsert (fun a b => key b - key a) x l) =
      if key x = q then x :: List.filter (fun z => key z = q) l
      else List.filter (fun z => key z = q) l := by
  induction l with
  | nil =>
    simp only [jsSortInsert, List.filter]
    by_cases hx : key x = q
    · simp [hx]
    · simp [hx]
  | cons y ys ih =>
    simp only [jsSortInsert]
    by_cases hc : key y - key x ≤ 0
    · rw [if_pos hc]
      by_cases hx : key x = q
      · simp [hx]
      · simp [hx]
    · rw [if_neg hc]
      have hy : ¬ key y = q ∨ ¬ key x = q := by
        by_cases hx : key x = q
        · left
          intro hyq
          apply hc
          rw [hyq, hx]
          simp
        · right; exact hx
      by_cases hx : key x = q
      · have hyn : ¬ key y = q := by
          rcases hy with h | h
          · exact h
          · exact absurd hx h
        simp only [List.filter, hyn, decide_eq_true_eq, decide_eq_false hyn]
        rw [ih]
        simp [hx, hyn]
      · simp only [List.filter]
        rw [ih]
        by_cases hyq : key y = q
        · simp [hx, hyq]
        · simp [hx, hyq]

/-- Helper: the stable key-descending sort preserves the relative order
of all elements sharing one key value. -/
theorem jsSort_filter_key {α : Type} (key : α → ℚ) (q : ℚ) (l : List α) :
    List.filter (fun z => key z = q)
        (jsSort (fun a b => key b - key a) l) =
      List.filter (fun z => key z = q) l := by
  induction l with
  | nil => rfl
  | cons x xs ih =>
    simp only [jsSort]
    rw [jsSortInsert_filter_key key q x (jsSort (fun a b => key b - key a) xs), ih]
    by_cases hx : key x = q
    · simp [hx]
    · simp [hx]

/-- C5 (amended): when items receive equal fused RRF scores,
`reciprocalRankFusion` keeps them in first-occurrence (insertion) order
across the input rankings — the sort is stable — rather than ordering
them by id ascending; the output is still fully determined by the
input. -/
theorem rrf_ties_first_occurrence (rankings : List (List RankedResult))
    (options : RRFOptions) (q : ℚ) :
    List.filter (fun z => z.rrfScore = q)
        (reciprocalRankFusion rankings options) =
      List.filter (fun z => z.rrfScore = q) (rrfCombined rankings options) :=
  jsSort_filter_key (fun z => z.rrfScore) q (rrfCombined rankings options)

/-- C5 counterexample: two one-item rankings, ids "b" then "a", produce
the equal fused scores 1/61 and 1/61, yet the output order is
["b", "a"] — first-occurrence order, not id ascending ("a" < "b"). -/
theorem rrf_tiebreak_counterexample :
    List.map (fun f => f.result.id)
        (reciprocalRankFusion [[rrfMemB], [rrfMemA]] {}) = ["b", "a"] ∧
    List.map (fun f => f.rrfScore)
        (reciprocalRankFusion [[rrfMemB], [rrfMemA]] {}) = [1/61, 1/61] ∧
    ("a" : String) < "b" := by
  have e1 : (("a" : String) == "b") = false := by decide
  have e2 : (("b" : String) == "b") = true := by decide
  have e3 : (("a" : String) == "a") = true := by decide
  have e4 : (("b" : String) == "a") = false := by decide
  have hcombined : rrfCombined [[rrfMemB], [rrfMemA]] {} =
      [⟨rrfMemB, 1/61⟩, ⟨rrfMemA, 1/61⟩] := by
    norm_num [rrfCombined, rrfProcessRanking, rrfProcessResult, rrfSet,
      lookupWeight, List.enum, List.enumFrom, List.lookup, rrfMemA, rrfMemB,
      e1, e2, e3, e4]
  have hsorted : reciprocalRankFusion [[rrfMemB], [rrfMemA]] {} =
      [⟨rrfMemB, 1/61⟩, ⟨rrfMemA, 1/61⟩] := by
    unfold reciprocalRankFusion
    rw [hcombined]
    norm_num [jsSort, jsSortInsert]
  refine ⟨?_, ?_, ?_⟩
  · rw [hsorted]; rfl
  · rw [hsorted]; rfl
  · simp
    decide

/-! ### Theorems: MMR helper lemmas (claims C8, C10) -/

/-- Helper: membership in the stable insert. -/
theorem mem_jsSortInsert {α : Type} (c : α → α → ℚ) (x z : α) (l : List α) :
    z ∈ jsSortInsert c x l ↔ z = x ∨ z ∈ l := by
  induction l with
  | nil => simp [jsSortInsert]
  | cons y ys ih =>
    simp only [jsSortInsert]
    split
    · simp only [List.mem_cons]
    · simp only [List.mem_cons, ih]
      tauto

/-- Helper: the stable insert permutes to a cons. -/
theorem jsSortInsert_perm {α : Type} (c : α → α → ℚ) (x : α) (l : List α) :
    List.Perm (jsSortInsert c x l) (x :: l) := by
  induction l with
  | nil => exact List.Perm.refl _
  | cons y ys ih =>
    simp only [jsSortInsert]
    split
    · exact List.Perm.refl _
    · exact (ih.cons y).trans (List.Perm.swap x y ys)

/-- Helper: the stable sort is a permutation of its input. -/
theorem jsSort_perm {α : Type} (c : α → α → ℚ) (l : List α) :
    List.Perm (jsSort c l) l := by
  induction l with
  | nil => exact List.Perm.refl _
  | cons x xs ih => exact (jsSortInsert_perm c x (jsSort c xs)).trans (ih.cons x)

/-- Helper: the stable insert preserves key-descending sortedness. -/
theorem jsSortInsert_sorted {α : Type} (key : α → ℚ) (x : α) (l : List α)
    (hl : l.Pairwise (fun a b => key b ≤ key a)) :
    (jsSortInsert (fun a b => key b - key a) x l).Pairwise
      (fun a b => key b ≤ key a) := by
  induction l with
  | nil => simp [jsSortInsert]
  | cons y ys ih =>
    rcases List.pairwise_cons.mp hl with ⟨hy, hys⟩
    simp only [jsSortInsert]
    by_cases hc : key y - key x ≤ 0
    · rw [if_pos hc]
      refine List.pairwise_cons.mpr ⟨?_, hl⟩
      intro z hz
      rcases List.mem_cons.mp hz with rfl | hz'
      · linarith
      · have := hy z hz'
        linarith
    · rw [if_neg hc]
      refine List.pairwise_cons.mpr ⟨?_, ih hys⟩
      intro z hz
      rcases (mem_jsSortInsert _ x z ys).mp hz with rfl | hz'
      · linarith
      · exact hy z hz'

/-- Helper: the stable sort is key-descending. -/
theorem jsSort_sorted {α : Type} (key : α → ℚ) (l : List α) :
    (jsSort (fun a b => key b - key a) l).Pairwise
      (fun a b => key b ≤ key a) := by
  induction l with
  | nil => simp [jsSort]
  | cons x xs ih => exact jsSortInsert_sorted key x _ ih

/-- Helper: the best-index fold started on a pair always returns a pair. -/
theorem bestFold_some (g : RankedResult → ℚ) (l : List (ℕ × RankedResult)) :
    ∀ q : ℚ × ℕ, ∃ r, l.foldl (bestFoldStep g) (some q) = some r := by
  induction l with
  | nil => intro q; exact ⟨q, rfl⟩
  | cons p rest ih =>
    intro q
    simp only [List.foldl_cons, bestFoldStep]
    by_cases h : g p.2 > q.1
    · rw [if_pos h]; exact ih _
    · rw [if_neg h]; exact ih _

/-- Helper: a fold over candidates that never beat the accumulator keeps
the accumulator (the scan replaces only on strict improvement). -/
theorem bestFold_keep (g : RankedResult → ℚ) (l : List (ℕ × RankedResult)) :
    ∀ q : ℚ × ℕ, (∀ p ∈ l, g p.2 ≤ q.1) →
      l.foldl (bestFoldStep g) (some q) = some q := by
  induction l with
  | nil => intro q _; rfl
  | cons p rest ih =>
    intro q h
    simp only [List.foldl_cons, bestFoldStep]
    rw [if_neg (not_lt.mpr (h p (List.mem_cons_self p rest)))]
    exact ih q (fun z hz => h z (List.mem_cons_of_mem p hz))

/-- Helper: every index produced by the best-index fold is in bounds. -/
theorem bestFold_lt (g : RankedResult → ℚ) (n : ℕ) :
    ∀ (l : List (ℕ × RankedResult)) (acc : Option (ℚ × ℕ)),
      (∀ q, acc = some q → q.2 < n) → (∀ p ∈ l, p.1 < n) →
      ∀ r, l.foldl (bestFoldStep g) acc = some r → r.2 < n := by
  intro l
  induction l with
  | nil => intro acc hacc _ r hr; exact hacc r hr
  | cons p rest ih =>
    intro acc hacc hl r hr
    simp only [List.foldl_cons] at hr
    refine ih (bestFoldStep g acc p) ?_
      (fun z hz => hl z (List.mem_cons_of_mem p hz)) r hr
    intro q hq
    cases acc with
    | none =>
      simp only [bestFoldStep] at hq
      cases hq
      exact hl p (List.mem_cons_self p rest)
    | some q0 =>
      simp only [bestFoldStep] at hq
      by_cases hgt : g p.2 > q0.1
      · rw [if_pos hgt] at hq
        cases hq
        exact hl p (List.mem_cons_self p rest)
      · rw [if_neg hgt] at hq
        cases hq
        exact hacc q rfl

/-- Helper: `bestIndex` returns an in-bounds index. -/
theorem bestIndex_lt (lambda : ℚ) (sel rem : List RankedResult) (i : ℕ)
    (h : bestIndex lambda sel rem = some i) : i < rem.length := by
  unfold bestIndex at h
  obtain ⟨r, hr, hri⟩ := Option.map_eq_some'.mp h
  have hmem : ∀ p ∈ rem.enum, p.1 < rem.length := by
    intro p hp
    rw [List.mem_enum_iff_getElem?] at hp
    exact (List.getElem?_eq_some.mp hp).1
  have hlt := bestFold_lt (mmrScore lambda sel) rem.length rem.enum none
    (fun q hq => Option.noConfusion hq) hmem r hr
  exact hri ▸ hlt

/-- Helper: `bestIndex` finds an index in any non-empty list. -/
theorem bestIndex_isSome (lambda : ℚ) (sel rem : List RankedResult)
    (hne : rem ≠ []) : ∃ i, bestIndex lambda sel rem = some i := by
  obtain ⟨h, t, rfl⟩ := List.exists_cons_of_ne_nil hne
  unfold bestIndex
  rw [List.enum_cons]
  simp only [List.foldl_cons]
  rw [show bestFoldStep (mmrScore lambda sel) none (0, h)
    = some (mmrScore lambda sel h, 0) from rfl]
  obtain ⟨r, hr⟩ := bestFold_some (mmrScore lambda sel) (t.enumFrom 1)
    (mmrScore lambda sel h, 0)
  rw [hr]
  exact ⟨r.2, rfl⟩

/-- Helper: when the head has the maximal MMR score, the scan keeps
index 0 (strict improvement is required to replace it). -/
theorem bestIndex_head (lambda : ℚ) (sel : List RankedResult)
    (h : RankedResult) (t : List RankedResult)
    (hmax : ∀ r ∈ t, mmrScore lambda sel r ≤ mmrScore lambda sel h) :
    bestIndex lambda sel (h :: t) = some 0 := by
  unfold bestIndex
  rw [List.enum_cons]
  simp only [List.foldl_cons]
  rw [show bestFoldStep (mmrScore lambda sel) none (0, h)
    = some (mmrScore lambda sel h, 0) from rfl]
  rw [bestFold_keep (mmrScore lambda sel) (t.enumFrom 1)
    (mmrScore lambda sel h, 0)
    (fun p hp => hmax p.2 (List.snd_mem_of_mem_enumFrom hp))]
  rfl

/-- Helper: with lambda 1 the MMR objective is exactly the relevance
score (the similarity penalty is multiplied by 0). -/
theorem mmrScore_one (sel : List RankedResult) (r : RankedResult) :
    mmrScore 1 sel r = r.score := by
  unfold mmrScore
  ring

/-- Helper: with lambda 1 and a score-descending remainder, the loop
appends the remainder in order, truncated by the remaining quota. -/
theorem mmrLoop_one (m : ℕ) :
    ∀ (fuel : ℕ) (sel rem : List RankedResult),
      rem.length ≤ fuel →
      rem.Pairwise (fun a b => b.score ≤ a.score) →
      mmrLoop 1 m fuel sel rem = sel ++ rem.take (m - sel.length) := by
  intro fuel
  induction fuel with
  | zero =>
    intro sel rem hlen _
    have hrem : rem = [] := List.length_eq_zero.mp (Nat.le_zero.mp hlen)
    subst hrem
    simp [mmrLoop]
  | succ fuel ih =>
    intro sel rem hlen hsorted
    by_cases hcond : sel.length < m ∧ rem ≠ []
    · obtain ⟨hm, hne⟩ := hcond
      obtain ⟨h, t, rfl⟩ := List.exists_cons_of_ne_nil hne
      have hbi : bestIndex 1 sel (h :: t) = some 0 := by
        apply bestIndex_head
        intro r hr
        rw [mmrScore_one, mmrScore_one]
        exact (List.pairwise_cons.mp hsorted).1 r hr
      simp only [mmrLoop]
      rw [if_pos (And.intro hm (List.cons_ne_nil h t)), hbi]
      show mmrLoop 1 m fuel (sel ++ [h]) t = sel ++ List.take (m - sel.length) (h :: t)
      rw [ih (sel ++ [h]) t (by simpa using Nat.succ_le_succ_iff.mp hlen)
        (List.pairwise_cons.mp hsorted).2]
      obtain ⟨k, hk⟩ : ∃ k, m - sel.length = k + 1 :=
        ⟨m - sel.length - 1, by omega⟩
      rw [hk, List.take_succ_cons]
      have hk2 : m - (sel ++ [h]).length = k := by
        simp only [List.length_append, List.length_cons, List.length_nil]
        omega
      rw [hk2]
      simp
    · have hstop : mmrLoop 1 m (fuel + 1) sel rem = sel := by
        simp only [mmrLoop]
        rw [if_neg hcond]
      rw [hstop]
      rcases not_and_or.mp hcond with h1 | h2
      · have hz : m - sel.length = 0 := by omega
        rw [hz]
        simp
      · have hrem : rem = [] := not_ne_iff.mp h2
        subst hrem
        simp

/-- Helper: the element found at an index, together with the list with
that index erased, permutes to the original list. -/
theorem get?_eraseIdx_perm :
    ∀ (l : List RankedResult) (i : ℕ) (r : RankedResult),
      l.get? i = some r → List.Perm (r :: l.eraseIdx i) l := by
  intro l
  induction l with
  | nil => intro i r h; simp [List.get?] at h
  | cons x t ih =>
    intro i r h
    cases i with
    | zero =>
      simp only [List.get?] at h
      cases h
      exact List.Perm.refl _
    | succ j =>
      simp only [List.get?] at h
      have hj := ih j r h
      show List.Perm (r :: x :: t.eraseIdx j) (x :: t)
      exact (List.Perm.swap x r (t.eraseIdx j)).trans (hj.cons x)

/-- Helper: the MMR loop adds exactly `min (quota, remainder)` elements,
all drawn without repetition from the remainder. -/
theorem mmrLoop_length_subperm (lambda : ℚ) (m : ℕ) :
    ∀ (fuel : ℕ) (sel rem : List RankedResult),
      rem.length ≤ fuel →
      (mmrLoop lambda m fuel sel rem).length
          = sel.length + min (m - sel.length) rem.length ∧
      ∃ rest, List.Perm ((mmrLoop lambda m fuel sel rem) ++ rest) (sel ++ rem) := by
  intro fuel
  induction fuel with
  | zero =>
    intro sel rem hlen
    have hrem : rem = [] := List.length_eq_zero.mp (Nat.le_zero.mp hlen)
    subst hrem
    exact ⟨by simp [mmrLoop], ⟨[], by simp [mmrLoop]⟩⟩
  | succ fuel ih =>
    intro sel rem hlen
    by_cases hcond : sel.length < m ∧ rem ≠ []
    · obtain ⟨hm, hne⟩ := hcond
      obtain ⟨i, hbi⟩ := bestIndex_isSome lambda sel rem hne
      have hilt : i < rem.length := bestIndex_lt lambda sel rem i hbi
      obtain ⟨r, hr⟩ : ∃ r, rem.get? i = some r :=
        ⟨rem.get ⟨i, hilt⟩, List.get?_eq_get hilt⟩
      have hstep : mmrLoop lambda m (fuel + 1) sel rem
          = mmrLoop lambda m fuel (sel ++ [r]) (rem.eraseIdx i) := by
        simp only [mmrLoop]
        rw [if_pos (And.intro hm hne)]
        simp only [hbi, hr]
      have hlen1 : (rem.eraseIdx i).length + 1 = rem.length :=
        List.length_eraseIdx_add_one hilt
      obtain ⟨hL, hE⟩ := ih (sel ++ [r]) (rem.eraseIdx i) (by omega)
      have hperm0 : List.Perm (r :: rem.eraseIdx i) rem :=
        get?_eraseIdx_perm rem i r hr
      rw [hstep]
      constructor
      · rw [hL]
        simp only [List.length_append, List.length_cons, List.length_nil]
        omega
      · obtain ⟨rest, hrest⟩ := hE
        refine ⟨rest, hrest.trans ?_⟩
        have hmid : (sel ++ [r]) ++ rem.eraseIdx i = sel ++ (r :: rem.eraseIdx i) := by
          simp
        rw [hmid]
        exact List.Perm.append_left sel hperm0
    · have hstop : mmrLoop lambda m (fuel + 1) sel rem = sel := by
        simp only [mmrLoop]
        rw [if_neg hcond]
      rw [hstop]
      rcases not_and_or.mp hcond with h1 | h2
      · refine ⟨?_, ⟨rem, List.Perm.refl _⟩⟩
        have hz : m - sel.length = 0 := by omega
        rw [hz]
        simp
      · have hrem : rem = [] := not_ne_iff.mp h2
        subst hrem
        exact ⟨by simp, ⟨[], by simp⟩⟩

/-! ### Theorems: MMR degeneracy and size (claims C8, C10) -/

/-- C8 (amended): for every `maxResults ≥ 1`, running MMR with lambda 1.0
returns exactly the stable score-descending sort of the candidates
truncated to `maxResults`; that sorted list is score-descending and a
permutation of the input.  (With `maxResults = 0` the source still
returns one item on non-empty input, see the counterexample.) -/
theorem mmr_lambda_one (results : List RankedResult) (maxResults : ℕ)
    (similarityThreshold : ℚ) (hmax : 1 ≤ maxResults) :
    maximalMarginalRelevance results
        { lambda := 1, maxResults := maxResults,
          similarityThreshold := similarityThreshold }
      = List.take maxResults (jsSort (fun a b => b.score - a.score) results) ∧
    (jsSort (fun a b => b.score - a.score) results).Pairwise
      (fun a b => b.score ≤ a.score) ∧
    List.Perm (jsSort (fun a b => b.score - a.score) results) results := by
  refine ⟨?_, jsSort_sorted RankedResult.score results, jsSort_perm _ _⟩
  by_cases hres : results = []
  · subst hres
    simp [maximalMarginalRelevance, jsSort]
  · unfold maximalMarginalRelevance
    rw [if_neg hres]
    have hsorted := jsSort_sorted RankedResult.score results
    have hperm := jsSort_perm (fun a b => b.score - a.score) results
    cases hs : jsSort (fun a b => b.score - a.score) results with
    | nil =>
      exfalso
      rw [hs] at hperm
      exact hres (List.length_eq_zero.mp hperm.length_eq.symm)
    | cons h t =>
      rw [hs] at hsorted
      show mmrLoop 1 maxResults t.length [h] t
        = List.take maxResults (h :: t)
      rw [mmrLoop_one maxResults t.length [h] t (le_refl _)
        (List.pairwise_cons.mp hsorted).2]
      obtain ⟨k, rfl⟩ : ∃ k, maxResults = k + 1 :=
        ⟨maxResults - 1, by omega⟩
      rw [List.take_succ_cons]
      have hk : k + 1 - ([h] : List RankedResult).length = k := by
        simp
      rw [hk]
      simp

/-- Witness for the amended C8: one candidate, lambda 1, default
maxResults 10. -/
theorem mmr_lambda_one_witness :
    maximalMarginalRelevance [{ id := "a", score := 1 }]
        { lambda := 1, maxResults := 10, similarityThreshold := 7/10 }
      = List.take 10 (jsSort (fun a b => b.score - a.score)
          ([{ id := "a", score := 1 }] : List RankedResult)) :=
  (mmr_lambda_one [{ id := "a", score := 1 }] 10 (7/10) (by norm_num)).1

/-- C8 counterexample: at `maxResults = 0` the claim fails — the source
pushes the top-scoring item before consulting `maxResults`, so the output
is that single item while the relevance-sorted order truncated to 0 is
empty. -/
theorem mmr_lambda_one_maxzero_counterexample :
    maximalMarginalRelevance [{ id := "a", score := 1, snippet := [] }]
        { lambda := 1, maxResults := 0, similarityThreshold := 7/10 }
      = [{ id := "a", score := 1, snippet := [] }] ∧
    List.take 0 (jsSort (fun a b => b.score - a.score)
        ([{ id := "a", score := 1, snippet := [] }] : List RankedResult)) = [] ∧
    [({ id := "a", score := 1, snippet := [] } : RankedResult)] ≠ [] := by
  refine ⟨rfl, rfl, ?_⟩
  intro hcontra
  exact List.noConfusion hcontra

/-- C10: for every `maxResults ≥ 1` and non-empty candidate list, MMR
returns exactly `min maxResults (number of candidates)` items, and the
output is a sub-permutation of the input: every selected item is an
occurrence of the input list, none duplicated or fabricated. -/
theorem mmr_size_subperm (results : List RankedResult) (options : MMROptions)
    (hmax : 1 ≤ options.maxResults) (hne : results ≠ []) :
    (maximalMarginalRelevance results options).length
        = min options.maxResults results.length ∧
    (maximalMarginalRelevance results options).Subperm results := by
  unfold maximalMarginalRelevance
  rw [if_neg hne]
  have hperm := jsSort_perm (fun a b => b.score - a.score) results
  cases hs : jsSort (fun a b => b.score - a.score) results with
  | nil =>
    exfalso
    rw [hs] at hperm
    exact hne (List.length_eq_zero.mp hperm.length_eq.symm)
  | cons h t =>
    rw [hs] at hperm
    obtain ⟨hL, hE⟩ := mmrLoop_length_subperm options.lambda
      options.maxResults t.length [h] t (le_refl _)
    have hlen : results.length = t.length + 1 := by
      have := hperm.length_eq
      simp only [List.length_cons] at this
      omega
    constructor
    · rw [hL, hlen]
      simp only [List.length_cons, List.length_nil]
      omega
    · obtain ⟨rest, hrest⟩ := hE
      have h1 : (mmrLoop options.lambda options.maxResults t.length [h] t).Sublist
          ((mmrLoop options.lambda options.maxResults t.length [h] t) ++ rest) :=
        List.sublist_append_left _ _
      have h2 : List.Perm
          ((mmrLoop options.lambda options.maxResults t.length [h] t) ++ rest)
          results := hrest.trans hperm
      exact h1.subperm.trans h2.subperm

/-- Witness for C10: two candidates, default options. -/
theorem mmr_size_subperm_witness :
    (maximalMarginalRelevance
        [{ id := "a", score := 1 }, { id := "b", score := 2 }]
        {}).length
      = min ({} : MMROptions).maxResults
          ([{ id := "a", score := 1 }, { id := "b", score := 2 }] :
            List RankedResult).length :=
  (mmr_size_subperm [{ id := "a", score := 1 }, { id := "b", score := 2 }] {}
    (by decide) (by decide)).1

/-! ### Theorems: learning gate (claim C7) -/

/-- Helper: looking up the key just stored. -/
theorem lookup_setPattern (st : List (String × PatternStats)) (p : String)
    (v : PatternStats) : (setPattern st p v).lookup p = some v := by
  induction st with
  | nil => simp [setPattern, List.lookup]
  | cons q rest ih =>
    obtain ⟨k, b⟩ := q
    simp only [setPattern]
    by_cases hq : k = p
    · rw [if_pos hq]
      simp [List.lookup]
    · rw [if_neg hq]
      have hne : (p == k) = false := by
        simp only [beq_eq_false_iff_ne, ne_eq]
        exact fun hc => hq hc.symm
      simp [List.lookup, hne, ih]

/-- Helper: storing one key leaves other lookups unchanged. -/
theorem lookup_setPattern_ne (st : List (String × PatternStats))
    (p p' : String) (v : PatternStats) (h : p' ≠ p) :
    (setPattern st p v).lookup p' = st.lookup p' := by
  induction st with
  | nil =>
    have hne : (p' == p) = false := by
      simp only [beq_eq_false_iff_ne, ne_eq]
      exact h
    simp [setPattern, List.lookup, hne]
  | cons q rest ih =>
    obtain ⟨k, b⟩ := q
    simp only [setPattern]
    by_cases hq : k = p
    · rw [if_pos hq]
      subst hq
      have hne : (p' == k) = false := by
        simp only [beq_eq_false_iff_ne, ne_eq]
        exact h
      simp [List.lookup, hne]
    · rw [if_neg hq]
      simp only [List.lookup]
      cases hpk : p' == k
      · simp [ih]
      · simp

/-- Helper: replaying the record list acts on the lookup of any one
pattern exactly like folding that pattern's own records. -/
theorem replay_lookup (p : String) :
    ∀ (records : List (String × Bool × ℚ)) (st : List (String × PatternStats)),
      ((records.foldl (fun st r => recordQuery st r.1 r.2.1 r.2.2) st).lookup p)
        = ((recordsFor p records).map (fun r => r.2)).foldl applyRecord
            (st.lookup p) := by
  intro records
  induction records with
  | nil => intro st; rfl
  | cons r rs ih =>
    intro st
    simp only [List.foldl_cons]
    rw [ih (recordQuery st r.1 r.2.1 r.2.2)]
    by_cases h : r.1 = p
    · have hrf : recordsFor p (r :: rs) = r :: recordsFor p rs := by
        simp [recordsFor, List.filter_cons, h]
      rw [hrf]
      simp only [List.map_cons, List.foldl_cons]
      have hlook : (recordQuery st r.1 r.2.1 r.2.2).lookup p
          = applyRecord (st.lookup p) r.2 := by
        subst h
        unfold recordQuery applyRecord
        rw [lookup_setPattern]
      rw [hlook]
    · have hrf : recordsFor p (r :: rs) = recordsFor p rs := by
        simp [recordsFor, List.filter_cons, h]
      rw [hrf]
      have hlook : (recordQuery st r.1 r.2.1 r.2.2).lookup p = st.lookup p := by
        unfold recordQuery
        exact lookup_setPattern_ne st r.1 p _ (fun hc => h hc.symm)
      rw [hlook]

/-- Helper: the with-cohort and without-cohort partition the records. -/
theorem filter_true_false_length (rs : List (Bool × ℚ)) :
    (rs.filter (fun r => r.1)).length + (rs.filter (fun r => !r.1)).length
      = rs.length := by
  induction rs with
  | nil => rfl
  | cons r t ih =>
    cases hr : r.1 <;> simp [List.filter_cons, hr] <;> omega

/-- Helper: the arithmetic mean of one more value, in the incremental
form used by `recordQuery`. -/
theorem meanOf_append (qs : List ℚ) (q : ℚ) :
    meanOf (qs ++ [q])
      = (meanOf qs * (qs.length : ℚ) + q) / ((qs.length : ℚ) + 1) := by
  by_cases h : qs = []
  · subst h
    simp [meanOf]
  · have hlen : qs.length ≠ 0 := fun hc => h (List.length_eq_zero.mp hc)
    have hlenq : (qs.length : ℚ) ≠ 0 := Nat.cast_ne_zero.mpr hlen
    simp only [meanOf, List.length_append, List.length_cons, List.length_nil,
      List.sum_append, List.sum_cons, List.sum_nil]
    rw [if_neg (by omega), if_neg hlen]
    push_cast
    field_simp

/-- Helper: the from-scratch statistics advance by exactly one
`recordStep` when one record is appended — the incremental means of the
source equal the batch means. -/
theorem statsOfRecords_append (rs : List (Bool × ℚ)) (used : Bool) (q : ℚ) :
    statsOfRecords (rs ++ [(used, q)]) = recordStep (statsOfRecords rs) used q := by
  have hpart := filter_true_false_length rs
  cases used
  · have hfT : (rs ++ [((false, q) : Bool × ℚ)]).filter (fun r => r.1)
        = rs.filter (fun r => r.1) := by
      simp [List.filter_append]
    have hfF : (rs ++ [((false, q) : Bool × ℚ)]).filter (fun r => !r.1)
        = rs.filter (fun r => !r.1) ++ [(false, q)] := by
      simp [List.filter_append]
    simp only [statsOfRecords, recordStep]
    rw [hfT, hfF]
    norm_num
    rw [meanOf_append, List.length_map]
    have hq : ((rs.filter (fun r => r.1)).length : ℚ)
        + ((rs.filter (fun r => !r.1)).length : ℚ) = (rs.length : ℚ) := by
      exact_mod_cast hpart
    rw [show ((rs.length : ℚ) + 1 - ((rs.filter (fun r => r.1)).length : ℚ) - 1)
        = ((rs.filter (fun r => !r.1)).length : ℚ) from by linarith,
      show ((rs.length : ℚ) + 1 - ((rs.filter (fun r => r.1)).length : ℚ))
        = ((rs.filter (fun r => !r.1)).length : ℚ) + 1 from by linarith]
  · have hfT : (rs ++ [((true, q) : Bool × ℚ)]).filter (fun r => r.1)
        = rs.filter (fun r => r.1) ++ [(true, q)] := by
      simp [List.filter_append]
    have hfF : (rs ++ [((true, q) : Bool × ℚ)]).filter (fun r => !r.1)
        = rs.filter (fun r => !r.1) := by
      simp [List.filter_append]
    simp only [statsOfRecords, recordStep]
    rw [hfT, hfF]
    norm_num
    rw [meanOf_append, List.length_map]

/-- Helper: the empty record list produces the initial statistics. -/
theorem statsOfRecords_nil : statsOfRecords [] = emptyStats := rfl

/-- Helper: folding a pattern's records from an absent entry produces the
from-scratch statistics (or no entry when the pattern was never seen). -/
theorem applyRecords_eq (rs : List (Bool × ℚ)) :
    rs.foldl applyRecord none
      = if rs = [] then none else some (statsOfRecords rs) := by
  induction rs using List.reverseRecOn with
  | nil => rfl
  | append_singleton rs r ih =>
    rw [List.foldl_append]
    simp only [List.foldl_cons, List.foldl_nil]
    rw [ih]
    obtain ⟨used, q⟩ := r
    by_cases h : rs = []
    · subst h
      rw [if_pos rfl, if_neg (by simp)]
      unfold applyRecord
      simp only [Option.getD_none]
      rw [show ([] : List (Bool × ℚ)) ++ [(used, q)]
          = ([] : List (Bool × ℚ)) ++ [(used, q)] from rfl,
        statsOfRecords_append, statsOfRecords_nil]
    · rw [if_neg h, if_neg (by simp)]
      unfold applyRecord
      simp only [Option.getD_some]
      rw [statsOfRecords_append]

/-- Helper: `shouldUseExpansion` on a pattern with no stored entry. -/
theorem shouldUseExpansion_of_none (st : List (String × PatternStats))
    (p : String) (h : st.lookup p = none) : shouldUseExpansion st p = none := by
  unfold shouldUseExpansion
  rw [h]

/-- Helper: `shouldUseExpansion` on a pattern with a stored entry. -/
theorem shouldUseExpansion_of_some (st : List (String × PatternStats))
    (p : String) (d : PatternStats) (h : st.lookup p = some d) :
    shouldUseExpansion st p
      = if d.totalUses < 3 then none
        else some (decide (d.avgQualityWith > d.avgQualityWithout + 0.1)) := by
  unfold shouldUseExpansion
  rw [h]

/-- C7: `shouldUseExpansion` is undecided (`null`) for a pattern with
fewer than 3 recorded outcomes; from 3 outcomes on it returns true
exactly when the running mean quality with the feature exceeds the
running mean without it by more than the fixed margin 0.1 — where the
running means equal the arithmetic means of the recorded qualities of
each cohort. -/
theorem learning_gate (records : List (String × Bool × ℚ)) (p : String) :
    ((recordsFor p records).length < 3 →
      shouldUseExpansion (replayLearning records) p = none) ∧
    (3 ≤ (recordsFor p records).length →
      shouldUseExpansion (replayLearning records) p
        = some (decide (meanOf (qualitiesWith p records)
            > meanOf (qualitiesWithout p records) + 0.1))) := by
  have hlookup : (replayLearning records).lookup p
      = if (recordsFor p records).map (fun r => r.2) = [] then none
        else some (statsOfRecords ((recordsFor p records).map (fun r => r.2))) := by
    unfold replayLearning
    rw [replay_lookup p records []]
    exact applyRecords_eq _
  have hlen : ((recordsFor p records).map (fun r => r.2)).length
      = (recordsFor p records).length := List.length_map _ _
  have htotal : (statsOfRecords ((recordsFor p records).map (fun r => r.2))).totalUses
      = (recordsFor p records).length := by
    simp only [statsOfRecords]
    exact hlen
  constructor
  · intro hlt
    by_cases h : (recordsFor p records).map (fun r => r.2) = []
    · exact shouldUseExpansion_of_none _ _ (by rw [hlookup, if_pos h])
    · rw [shouldUseExpansion_of_some _ _ _ (by rw [hlookup, if_neg h])]
      rw [if_pos (by omega)]
  · intro hge
    have h : (recordsFor p records).map (fun r => r.2) ≠ [] := by
      intro hc
      have h0 := congrArg List.length hc
      rw [hlen] at h0
      simp only [List.length_nil] at h0
      omega
    rw [shouldUseExpansion_of_some _ _ _ (by rw [hlookup, if_neg h])]
    rw [if_neg (by omega)]
    have hw : (statsOfRecords ((recordsFor p records).map (fun r => r.2))).avgQualityWith
        = meanOf (qualitiesWith p records) := by
      simp only [statsOfRecords]
      congr 1
      simp [qualitiesWith, List.filter_map, List.map_map, Function.comp_def]
    have hwo : (statsOfRecords ((recordsFor p records).map (fun r => r.2))).avgQualityWithout
        = meanOf (qualitiesWithout p records) := by
      simp only [statsOfRecords]
      congr 1
      simp [qualitiesWithout, List.filter_map, List.map_map, Function.comp_def]
    rw [hw, hwo]

/-- Witness for C7: after two with-feature outcomes of quality 1 and one
without-feature outcome of quality 0, the gate opens and decides true
(mean 1 exceeds mean 0 by more than 0.1). -/
theorem learning_gate_witness :
    shouldUseExpansion
        (replayLearning [("p", true, 1), ("p", true, 1), ("p", false, 0)])
        "p" = some true := by
  have h := (learning_gate [("p", true, 1), ("p", true, 1), ("p", false, 0)]
    "p").2 (by decide)
  rw [h]
  congr 1
  rw [decide_eq_true_eq]
  norm_num [qualitiesWith, qualitiesWithout, recordsFor, meanOf]

end Clawtext
